import Mathlib

/-!
# Verification of the `useTasks` store of *my-little-task-box*

Shallow embedding of `src/composables/useTasks.ts` (reproduced in the
repository README) and of the filter logic of
`src/components/TaskList.vue`, together with proofs of the specified
properties of the Task Store.

Modelling choices:
* JavaScript strings are embedded as `List Char`; `String.prototype.trim`
  (removal of leading and trailing whitespace) is `strTrim`.
* `Date` timestamps are embedded as natural numbers; each operation that
  reads the clock (`new Date()`) receives the current time `now : Nat`
  as an explicit argument.
* The module state (the `tasks` ref and the `nextId` counter) is an
  explicit `StoreState` record threaded through the operations.
* A TypeScript `Partial` record is embedded with `Option` fields
  (`none` = key absent from the partial).
-/

namespace TaskBox

/-- JavaScript strings, embedded as lists of characters. -/
abbrev Str := List Char

/-- JS `String.prototype.trim`: removes leading and trailing whitespace. -/
def strTrim (s : Str) : Str :=
  ((s.dropWhile Char.isWhitespace).reverse.dropWhile Char.isWhitespace).reverse

/-- The `Task` interface of `useTasks.ts`. -/
structure Task where
  id : Nat
  title : Str
  description : Str
  completed : Bool
  createdAt : Nat
  updatedAt : Nat
deriving Repr, DecidableEq, Inhabited

/-- The module-level mutable state of `useTasks.ts`: the `tasks` ref and
the `nextId` auto-increment counter. -/
structure StoreState where
  tasks : List Task
  nextId : Nat
deriving Repr, DecidableEq

/-- The initial module state: `tasks = []`, `nextId = 1`. -/
def initState : StoreState := { tasks := [], nextId := 1 }

/-- A `Partial<Pick<Task, 'title' | 'description' | 'completed'>>`
argument of `updateTask`; `none` means the key is absent. -/
structure TaskUpdates where
  title : Option Str := none
  description : Option Str := none
  completed : Option Bool := none
deriving Repr, DecidableEq

/-- JS `Array.prototype.findIndex` (first index whose element satisfies
`p`; `none` plays the role of `-1`). -/
def findIndex (p : Task → Bool) : List Task → Option Nat
  | [] => none
  | t :: ts => if p t then some 0 else (findIndex p ts).map (· + 1)

/-- Operation `addTask(title, description = '')`: a no-op when the trimmed title is
empty, otherwise appends a fresh task and increments `nextId`. -/
def addTask (title : Str) (description : Str) (now : Nat) (s : StoreState) :
    StoreState :=
  if strTrim title = [] then s
  else
    { tasks := s.tasks ++
        [{ id := s.nextId, title := strTrim title,
           description := strTrim description, completed := false,
           createdAt := now, updatedAt := now }],
      nextId := s.nextId + 1 }

/-- The spread `{...existingTask, ...updates, updatedAt: new Date()}`:
fields present in the partial override the existing record, `updatedAt`
is refreshed, `id` and `createdAt` are kept. -/
def applyUpdates (u : TaskUpdates) (now : Nat) (t : Task) : Task :=
  { t with
    title := u.title.getD t.title
    description := u.description.getD t.description
    completed := u.completed.getD t.completed
    updatedAt := now }

/-- Operation `updateTask(id, updates)`: linear scan by `findIndex`; no-op when the
id is absent, otherwise replaces the record at the found index. -/
def updateTask (id : Nat) (u : TaskUpdates) (now : Nat) (s : StoreState) :
    StoreState :=
  match findIndex (fun t => t.id == id) s.tasks with
  | none => s
  | some i => { s with tasks := s.tasks.set i (applyUpdates u now (s.tasks.getD i default)) }

/-- Operation `deleteTask(id)`: linear scan by `findIndex`; no-op when the id is
absent, otherwise `splice(taskIndex, 1)`. -/
def deleteTask (id : Nat) (s : StoreState) : StoreState :=
  match findIndex (fun t => t.id == id) s.tasks with
  | none => s
  | some i => { s with tasks := s.tasks.eraseIdx i }

/-- Operation `toggleTaskComplete(id)`: `find` the task; when present, delegate to
`updateTask` with the negated `completed` flag. -/
def toggleTaskComplete (id : Nat) (now : Nat) (s : StoreState) : StoreState :=
  match s.tasks.find? (fun t => t.id == id) with
  | none => s
  | some t => updateTask id { completed := some (!t.completed) } now s

/-- Operation `clearCompletedTasks()`: keep exactly the tasks whose `completed` is
false. -/
def clearCompletedTasks (s : StoreState) : StoreState :=
  { s with tasks := s.tasks.filter (fun t => !t.completed) }

/-- Operation `clearAllTasks()`: empty the collection and reset the counter to 1. -/
def clearAllTasks (_s : StoreState) : StoreState :=
  { tasks := [], nextId := 1 }

/-- Operation `getTaskById(id)`: linear scan, read-only. -/
def getTaskById (id : Nat) (s : StoreState) : Option Task :=
  s.tasks.find? (fun t => t.id == id)

/-- The computed view `completedTasks`. -/
def completedTasks (s : StoreState) : List Task :=
  s.tasks.filter (fun t => t.completed)

/-- The computed view `pendingTasks`. -/
def pendingTasks (s : StoreState) : List Task :=
  s.tasks.filter (fun t => !t.completed)

/-- The computed view `totalTasks`. -/
def totalTasks (s : StoreState) : Nat :=
  s.tasks.length

/-- The three-way filter prop of `TaskList.vue`. -/
inductive FilterMode where
  | all
  | pending
  | completed
deriving Repr, DecidableEq

/-- The `filteredTasks` computed property of `TaskList.vue`. -/
def filteredTasks (filter : FilterMode) (tasks : List Task) : List Task :=
  match filter with
  | .pending => tasks.filter (fun t => !t.completed)
  | .completed => tasks.filter (fun t => t.completed)
  | .all => tasks

/-- One call against the store: the mutating operations of `useTasks`,
with the clock reading passed explicitly. -/
inductive Op where
  | add (title description : Str) (now : Nat)
  | update (id : Nat) (u : TaskUpdates) (now : Nat)
  | delete (id : Nat)
  | toggle (id : Nat) (now : Nat)
  | clearCompleted
  | clearAll
deriving Repr, DecidableEq

/-- Interpretation of one call. -/
def applyOp (op : Op) (s : StoreState) : StoreState :=
  match op with
  | .add title description now => addTask title description now s
  | .update id u now => updateTask id u now s
  | .delete id => deleteTask id s
  | .toggle id now => toggleTaskComplete id now s
  | .clearCompleted => clearCompletedTasks s
  | .clearAll => clearAllTasks s

/-- Run a sequence of calls from a state. -/
def run (ops : List Op) (s : StoreState) : StoreState :=
  match ops with
  | [] => s
  | op :: rest => run rest (applyOp op s)

/-- Invariant: the ids along the collection are strictly increasing and
all lie below the `nextId` counter. -/
def IdInv (s : StoreState) : Prop :=
  (s.tasks.map Task.id).Pairwise (· < ·) ∧ ∀ t ∈ s.tasks, t.id < s.nextId

/-- The clock reading consumed by a call, if any. -/
def opTime : Op → Option Nat
  | .add _ _ now => some now
  | .update _ _ now => some now
  | .toggle _ now => some now
  | _ => none

/-- The clock readings consumed by a call sequence, in order. -/
def timesOf (ops : List Op) : List Nat := ops.filterMap opTime

/-- Invariant: every task's timestamps are ordered and bounded by the
latest clock reading `c`. -/
def TimeInv (c : Nat) (s : StoreState) : Prop :=
  ∀ t ∈ s.tasks, t.createdAt ≤ t.updatedAt ∧ t.updatedAt ≤ c

/-- A non-empty, trimmed text label. -/
def goodTitle (s : Str) : Prop := strTrim s ≠ [] ∧ strTrim s = s

/-- Every task in the collection carries a non-empty, trimmed title. -/
def TitleInv (s : StoreState) : Prop := ∀ t ∈ s.tasks, goodTitle t.title

/-- A call whose partial, whenever it sets `title`, sets it to a
non-empty trimmed value (vacuously true for every other call). -/
def opTitleOk : Op → Bool
  | .update _ u _ =>
    match u.title with
    | some x => !(strTrim x).isEmpty && (strTrim x == x)
    | none => true
  | _ => true

/-- Run a sequence of calls, also accumulating the ids assigned by the
successful `addTask` calls since the last `clearAllTasks`. -/
def runAssigned : List Op → StoreState → List Nat → StoreState × List Nat
  | [], s, acc => (s, acc)
  | op :: rest, s, acc =>
    let acc' :=
      match op with
      | .add title _ _ => if strTrim title = [] then acc else acc ++ [s.nextId]
      | .clearAll => []
      | _ => acc
    runAssigned rest (applyOp op s) acc'

/-! ## Helper lemmas about `findIndex` -/

theorem findIndex_eq_none {p : Task → Bool} {l : List Task} :
    findIndex p l = none ↔ ∀ t ∈ l, p t = false := by
  induction l with
  | nil => simp [findIndex]
  | cons a tl ih =>
    by_cases ha : p a
    · simp [findIndex, ha]
    · simp only [findIndex, Bool.not_eq_true] at ha
      simp [findIndex, ha, Option.map_eq_none, ih]

/-- When `findIndex` reports index `i`, the list splits as
`l₁ ++ t :: l₂` with `l₁.length = i`, `p` failing on all of `l₁` and
holding at `t`. -/
theorem findIndex_decomp {p : Task → Bool} :
    ∀ {l : List Task} {i : Nat}, findIndex p l = some i →
      ∃ l₁ t l₂, l = l₁ ++ t :: l₂ ∧ l₁.length = i ∧ p t = true ∧
        ∀ u ∈ l₁, p u = false := by
  intro l
  induction l with
  | nil => intro i h; simp [findIndex] at h
  | cons a tl ih =>
    intro i h
    by_cases ha : p a
    · simp only [findIndex, ha, if_true, Option.some.injEq] at h
      subst h
      exact ⟨[], a, tl, rfl, rfl, ha, by simp⟩
    · have ha' : p a = false := by simpa using ha
      simp only [findIndex, ha', Bool.false_eq_true, if_false] at h
      cases hj : findIndex p tl with
      | none => rw [hj] at h; simp at h
      | some j =>
        rw [hj] at h
        simp only [Option.map_some', Option.some.injEq] at h
        obtain ⟨l₁, t, l₂, hl, hlen, hpt, hfail⟩ := ih hj
        refine ⟨a :: l₁, t, l₂, by simp [hl], by simp [hlen, h], hpt, ?_⟩
        intro u hu
        rcases List.mem_cons.mp hu with h1 | h2
        · simpa [h1] using ha'
        · exact hfail u h2

theorem set_append_length {l₁ l₂ : List Task} {t x : Task} :
    (l₁ ++ t :: l₂).set l₁.length x = l₁ ++ x :: l₂ := by
  induction l₁ with
  | nil => rfl
  | cons a tl ih => simp [List.set, ih]

theorem eraseIdx_append_length {l₁ l₂ : List Task} {t : Task} :
    (l₁ ++ t :: l₂).eraseIdx l₁.length = l₁ ++ l₂ := by
  induction l₁ with
  | nil => rfl
  | cons a tl ih => simp [List.eraseIdx, ih]

theorem getD_append_length {l₁ l₂ : List Task} {t : Task} :
    (l₁ ++ t :: l₂).getD l₁.length default = t := by
  induction l₁ with
  | nil => rfl
  | cons a tl ih => simpa using ih

theorem find?_append_cons {p : Task → Bool} {l₁ l₂ : List Task} {t : Task}
    (hfail : ∀ u ∈ l₁, p u = false) (ht : p t = true) :
    (l₁ ++ t :: l₂).find? p = some t := by
  induction l₁ with
  | nil => simp [List.find?_cons, ht]
  | cons a tl ih =>
    have ha : p a = false := hfail a (by simp)
    simp only [List.cons_append, List.find?_cons, ha]
    exact ih fun u hu => hfail u (List.mem_cons_of_mem a hu)

theorem findIndex_append_cons {p : Task → Bool} {l₁ l₂ : List Task} {t : Task}
    (hfail : ∀ u ∈ l₁, p u = false) (ht : p t = true) :
    findIndex p (l₁ ++ t :: l₂) = some l₁.length := by
  induction l₁ with
  | nil => simp [findIndex, ht]
  | cons a tl ih =>
    have ha : p a = false := hfail a (by simp)
    have := ih fun u hu => hfail u (List.mem_cons_of_mem a hu)
    simp [findIndex, ha, this]

theorem find?_decomp {p : Task → Bool} :
    ∀ {l : List Task} {t : Task}, l.find? p = some t →
      ∃ l₁ l₂, l = l₁ ++ t :: l₂ ∧ p t = true ∧ ∀ u ∈ l₁, p u = false := by
  intro l
  induction l with
  | nil => intro t h; simp at h
  | cons a tl ih =>
    intro t h
    by_cases ha : p a
    · rw [List.find?_cons_of_pos _ ha, Option.some_inj] at h
      exact ⟨[], tl, by simp [h], h ▸ ha, by simp⟩
    · have ha' : p a = false := by simpa using ha
      rw [List.find?_cons_of_neg _ ha] at h
      obtain ⟨l₁, l₂, hl, hpt, hfail⟩ := ih h
      refine ⟨a :: l₁, l₂, by simp [hl], hpt, ?_⟩
      intro u hu
      rcases List.mem_cons.mp hu with h1 | h2
      · simpa [h1] using ha'
      · exact hfail u h2

/-! ## Characterizations of the operations -/

theorem updateTask_nextId (id : Nat) (u : TaskUpdates) (now : Nat)
    (s : StoreState) : (updateTask id u now s).nextId = s.nextId := by
  unfold updateTask
  cases findIndex (fun t => t.id == id) s.tasks <;> rfl

theorem deleteTask_nextId (id : Nat) (s : StoreState) :
    (deleteTask id s).nextId = s.nextId := by
  unfold deleteTask
  cases findIndex (fun t => t.id == id) s.tasks <;> rfl

theorem toggleTaskComplete_nextId (id now : Nat) (s : StoreState) :
    (toggleTaskComplete id now s).nextId = s.nextId := by
  unfold toggleTaskComplete
  cases s.tasks.find? (fun t => t.id == id) with
  | none => rfl
  | some t => exact updateTask_nextId ..

/-- The full behaviour of `updateTask` when the id is present: the
collection splits around the first record carrying the id, and exactly
that record is replaced by its merge with the partial. -/
theorem updateTask_found {id : Nat} (u : TaskUpdates) (now : Nat)
    {s : StoreState} {l₁ l₂ : List Task} {t : Task}
    (hs : s.tasks = l₁ ++ t :: l₂) (ht : t.id = id)
    (hfail : ∀ x ∈ l₁, (x.id == id) = false) :
    (updateTask id u now s).tasks = l₁ ++ applyUpdates u now t :: l₂ := by
  have hidx : findIndex (fun x => x.id == id) s.tasks = some l₁.length := by
    rw [hs]; exact findIndex_append_cons hfail (by simp [ht])
  unfold updateTask
  rw [hidx]
  simp only [hs, getD_append_length, set_append_length]

/-- The full behaviour of `deleteTask` when the id is present. -/
theorem deleteTask_found {id : Nat} {s : StoreState} {l₁ l₂ : List Task}
    {t : Task} (hs : s.tasks = l₁ ++ t :: l₂) (ht : t.id = id)
    (hfail : ∀ x ∈ l₁, (x.id == id) = false) :
    (deleteTask id s).tasks = l₁ ++ l₂ := by
  have hidx : findIndex (fun x => x.id == id) s.tasks = some l₁.length := by
    rw [hs]; exact findIndex_append_cons hfail (by simp [ht])
  unfold deleteTask
  rw [hidx]
  simp only [hs, eraseIdx_append_length]

/-- Merging never changes the id. -/
theorem applyUpdates_id (u : TaskUpdates) (now : Nat) (t : Task) :
    (applyUpdates u now t).id = t.id := rfl

/-- Merging never changes `createdAt`. -/
theorem applyUpdates_createdAt (u : TaskUpdates) (now : Nat) (t : Task) :
    (applyUpdates u now t).createdAt = t.createdAt := rfl

/-- Updating never changes the sequence of ids. -/
theorem updateTask_map_id (id : Nat) (u : TaskUpdates) (now : Nat)
    (s : StoreState) :
    (updateTask id u now s).tasks.map Task.id = s.tasks.map Task.id := by
  cases hidx : findIndex (fun t => t.id == id) s.tasks with
  | none => unfold updateTask; rw [hidx]
  | some i =>
    obtain ⟨l₁, t, l₂, hl, hlen, hpt, hfail⟩ := findIndex_decomp hidx
    have := updateTask_found u now hl (by simpa using hpt) hfail
    rw [this, hl]
    simp [applyUpdates_id]

/-- Toggling never changes the sequence of ids. -/
theorem toggleTaskComplete_map_id (id now : Nat) (s : StoreState) :
    (toggleTaskComplete id now s).tasks.map Task.id = s.tasks.map Task.id := by
  unfold toggleTaskComplete
  cases s.tasks.find? (fun t => t.id == id) with
  | none => rfl
  | some t => exact updateTask_map_id ..

/-! ## Helper lemmas about `strTrim` -/

/-- The head of `dropWhile p l` never satisfies `p`. -/
theorem head?_dropWhile_false {p : Char → Bool} :
    ∀ {l : Str} {a : Char}, (l.dropWhile p).head? = some a → p a = false := by
  intro l
  induction l with
  | nil => intro a h; simp at h
  | cons b tl ih =>
    intro a h
    by_cases hb : p b
    · rw [List.dropWhile_cons, if_pos hb] at h
      exact ih h
    · rw [List.dropWhile_cons, if_neg hb] at h
      simp only [List.head?_cons, Option.some_inj] at h
      simpa [← h] using hb

/-- A list whose head fails `p` is left unchanged by `dropWhile p`. -/
theorem dropWhile_eq_self_of_head {p : Char → Bool} {l : Str}
    (h : ∀ a, l.head? = some a → p a = false) : l.dropWhile p = l := by
  cases l with
  | nil => rfl
  | cons b tl =>
    have hb : p b = false := h b rfl
    simp [List.dropWhile_cons, hb]

/-- Heads of a nonempty prefix agree with the head of the whole list. -/
theorem head?_extend {l₁ l₂ : Str} {a : Char}
    (h : l₁.head? = some a) : (l₁ ++ l₂).head? = some a := by
  cases l₁ with
  | nil => simp at h
  | cons b tl => simpa using h

/-- Trimming never leaves leading whitespace. -/
theorem strTrim_head {s : Str} {a : Char}
    (h : (strTrim s).head? = some a) : a.isWhitespace = false := by
  unfold strTrim at h
  set r := (s.dropWhile Char.isWhitespace).reverse.dropWhile Char.isWhitespace with hr
  set d := s.dropWhile Char.isWhitespace with hd
  have hsplit : d.reverse = d.reverse.takeWhile Char.isWhitespace ++ r := by
    rw [hr, List.takeWhile_append_dropWhile]
  have hd2 : d = r.reverse ++ (d.reverse.takeWhile Char.isWhitespace).reverse := by
    have := congrArg List.reverse hsplit
    simpa using this
  have hhead : d.head? = some a := by
    rw [hd2]; exact head?_extend h
  exact head?_dropWhile_false (by rw [← hd]; exact hhead)

/-- Trimming is idempotent. -/
theorem strTrim_strTrim (s : Str) : strTrim (strTrim s) = strTrim s := by
  have h1 : (strTrim s).dropWhile Char.isWhitespace = strTrim s :=
    dropWhile_eq_self_of_head fun a ha => strTrim_head ha
  have h2 : (strTrim s).reverse.dropWhile Char.isWhitespace = (strTrim s).reverse := by
    apply dropWhile_eq_self_of_head
    intro a ha
    unfold strTrim at ha
    rw [List.reverse_reverse] at ha
    exact head?_dropWhile_false ha
  show (((strTrim s).dropWhile Char.isWhitespace).reverse.dropWhile
      Char.isWhitespace).reverse = strTrim s
  rw [h1, h2, List.reverse_reverse]

/-! ## Preservation of the id invariant -/

theorem idInv_init : IdInv initState :=
  ⟨List.Pairwise.nil, by intro t ht; simp [initState] at ht⟩

theorem idInv_of_sublist {s s' : StoreState} (hsub : s'.tasks.Sublist s.tasks)
    (hnext : s.nextId ≤ s'.nextId) (h : IdInv s) : IdInv s' :=
  ⟨List.Pairwise.sublist (hsub.map Task.id) h.1,
   fun t ht => lt_of_lt_of_le (h.2 t (hsub.subset ht)) hnext⟩

theorem idInv_addTask (title description : Str) (now : Nat) (s : StoreState)
    (h : IdInv s) : IdInv (addTask title description now s) := by
  by_cases hb : strTrim title = []
  · simpa [addTask, hb] using h
  · obtain ⟨hpw, hlt⟩ := h
    unfold addTask
    rw [if_neg hb]
    constructor
    · rw [List.map_append, List.pairwise_append]
      refine ⟨hpw, by simp, ?_⟩
      intro a ha b hb'
      simp only [List.map_cons, List.map_nil, List.mem_singleton] at hb'
      subst hb'
      obtain ⟨t, htmem, rfl⟩ := List.mem_map.mp ha
      exact hlt t htmem
    · intro t ht
      rcases List.mem_append.mp ht with h1 | h2
      · exact Nat.lt_succ_of_lt (hlt t h1)
      · simp only [List.mem_singleton] at h2
        rw [h2]
        exact Nat.lt_succ_self _

theorem idInv_updateTask (id : Nat) (u : TaskUpdates) (now : Nat)
    (s : StoreState) (h : IdInv s) : IdInv (updateTask id u now s) := by
  obtain ⟨hpw, hlt⟩ := h
  refine ⟨by rw [updateTask_map_id]; exact hpw, ?_⟩
  intro t ht
  have hmem : t.id ∈ (updateTask id u now s).tasks.map Task.id :=
    List.mem_map_of_mem Task.id ht
  rw [updateTask_map_id] at hmem
  obtain ⟨t', ht', hid⟩ := List.mem_map.mp hmem
  rw [updateTask_nextId]
  exact hid ▸ hlt t' ht'

theorem idInv_toggle (id now : Nat) (s : StoreState) (h : IdInv s) :
    IdInv (toggleTaskComplete id now s) := by
  unfold toggleTaskComplete
  cases s.tasks.find? (fun t => t.id == id) with
  | none => exact h
  | some t => exact idInv_updateTask _ _ _ _ h

theorem idInv_applyOp (op : Op) (s : StoreState) (h : IdInv s) :
    IdInv (applyOp op s) := by
  cases op with
  | add title description now => exact idInv_addTask title description now s h
  | update id u now => exact idInv_updateTask id u now s h
  | delete id =>
    show IdInv (deleteTask id s)
    refine idInv_of_sublist ?_ (by rw [deleteTask_nextId]) h
    unfold deleteTask
    cases findIndex (fun t => t.id == id) s.tasks with
    | none => exact List.Sublist.refl _
    | some i => exact List.eraseIdx_sublist s.tasks i
  | toggle id now => exact idInv_toggle id now s h
  | clearCompleted =>
    exact idInv_of_sublist (List.filter_sublist s.tasks) (le_refl _) h
  | clearAll => exact idInv_init

theorem idInv_run : ∀ (ops : List Op) (s : StoreState),
    IdInv s → IdInv (run ops s) := by
  intro ops
  induction ops with
  | nil => intro s h; exact h
  | cons op rest ih => intro s h; exact ih (applyOp op s) (idInv_applyOp op s h)

/-! ## Preservation of the timestamp invariant -/

theorem timeInv_mono {c n : Nat} {s : StoreState} (hcn : c ≤ n)
    (h : TimeInv c s) : TimeInv n s :=
  fun t ht => ⟨(h t ht).1, le_trans (h t ht).2 hcn⟩

theorem timeInv_subset {c : Nat} {s s' : StoreState}
    (hsub : ∀ t ∈ s'.tasks, t ∈ s.tasks) (h : TimeInv c s) : TimeInv c s' :=
  fun t ht => h t (hsub t ht)

theorem timeInv_addTask {c : Nat} (title description : Str) (now : Nat)
    (s : StoreState) (hcn : c ≤ now) (h : TimeInv c s) :
    TimeInv now (addTask title description now s) := by
  by_cases hb : strTrim title = []
  · simpa [addTask, hb] using timeInv_mono hcn h
  · intro t ht
    unfold addTask at ht
    rw [if_neg hb] at ht
    rcases List.mem_append.mp ht with h1 | h2
    · exact ⟨(h t h1).1, le_trans (h t h1).2 hcn⟩
    · simp only [List.mem_singleton] at h2
      rw [h2]
      exact ⟨le_refl _, le_refl _⟩

theorem timeInv_updateTask {c : Nat} (id : Nat) (u : TaskUpdates) (now : Nat)
    (s : StoreState) (hcn : c ≤ now) (h : TimeInv c s) :
    TimeInv now (updateTask id u now s) := by
  cases hidx : findIndex (fun t => t.id == id) s.tasks with
  | none =>
    unfold updateTask
    rw [hidx]
    exact timeInv_mono hcn h
  | some i =>
    obtain ⟨l₁, t, l₂, hl, hlen, hpt, hfail⟩ := findIndex_decomp hidx
    intro t' ht'
    rw [updateTask_found u now hl (by simpa using hpt) hfail] at ht'
    have hmem : ∀ x ∈ l₁ ++ t :: l₂, x.createdAt ≤ x.updatedAt ∧ x.updatedAt ≤ c :=
      fun x hx => h x (hl ▸ hx)
    rcases List.mem_append.mp ht' with h1 | h2
    · have := hmem t' (List.mem_append_left _ h1)
      exact ⟨this.1, le_trans this.2 hcn⟩
    · rcases List.mem_cons.mp h2 with h3 | h4
      · have ht : t.createdAt ≤ t.updatedAt ∧ t.updatedAt ≤ c :=
          hmem t (List.mem_append_right _ (List.mem_cons_self t l₂))
        rw [h3]
        exact ⟨le_trans ht.1 (le_trans ht.2 hcn), le_refl _⟩
      · have := hmem t' (List.mem_append_right _ (List.mem_cons_of_mem t h4))
        exact ⟨this.1, le_trans this.2 hcn⟩

theorem timeInv_toggle {c : Nat} (id now : Nat) (s : StoreState)
    (hcn : c ≤ now) (h : TimeInv c s) :
    TimeInv now (toggleTaskComplete id now s) := by
  unfold toggleTaskComplete
  cases s.tasks.find? (fun t => t.id == id) with
  | none => exact timeInv_mono hcn h
  | some t => exact timeInv_updateTask _ _ _ _ hcn h

theorem timeInv_applyOp_timed {c n : Nat} {op : Op} {s : StoreState}
    (hop : opTime op = some n) (hcn : c ≤ n) (h : TimeInv c s) :
    TimeInv n (applyOp op s) := by
  cases op with
  | add title description now =>
    obtain rfl : now = n := by simpa [opTime] using hop
    exact timeInv_addTask title description now s hcn h
  | update id u now =>
    obtain rfl : now = n := by simpa [opTime] using hop
    exact timeInv_updateTask id u now s hcn h
  | toggle id now =>
    obtain rfl : now = n := by simpa [opTime] using hop
    exact timeInv_toggle id now s hcn h
  | delete id => simp [opTime] at hop
  | clearCompleted => simp [opTime] at hop
  | clearAll => simp [opTime] at hop

theorem timeInv_applyOp_untimed {c : Nat} {op : Op} {s : StoreState}
    (hop : opTime op = none) (h : TimeInv c s) : TimeInv c (applyOp op s) := by
  cases op with
  | add title description now => simp [opTime] at hop
  | update id u now => simp [opTime] at hop
  | toggle id now => simp [opTime] at hop
  | delete id =>
    refine timeInv_subset ?_ h
    show ∀ t ∈ (deleteTask id s).tasks, t ∈ s.tasks
    unfold deleteTask
    cases findIndex (fun t => t.id == id) s.tasks with
    | none => exact fun t ht => ht
    | some i => exact fun t ht => (List.eraseIdx_sublist s.tasks i).subset ht
  | clearCompleted =>
    refine timeInv_subset ?_ h
    exact fun t ht => (List.filter_sublist s.tasks).subset ht
  | clearAll =>
    intro t ht
    simp [applyOp, clearAllTasks] at ht

theorem timeInv_run : ∀ (ops : List Op) (c : Nat) (s : StoreState),
    TimeInv c s → List.Chain (· ≤ ·) c (timesOf ops) →
    ∃ c', TimeInv c' (run ops s) := by
  intro ops
  induction ops with
  | nil => intro c s h _; exact ⟨c, h⟩
  | cons op rest ih =>
    intro c s h hchain
    show ∃ c', TimeInv c' (run rest (applyOp op s))
    cases hop : opTime op with
    | none =>
      have heq : timesOf (op :: rest) = timesOf rest := by
        simp [timesOf, List.filterMap_cons, hop]
      rw [heq] at hchain
      exact ih c _ (timeInv_applyOp_untimed hop h) hchain
    | some n =>
      have heq : timesOf (op :: rest) = n :: timesOf rest := by
        simp [timesOf, List.filterMap_cons, hop]
      rw [heq, List.chain_cons] at hchain
      exact ih n _ (timeInv_applyOp_timed hop hchain.1 h) hchain.2

/-! ## Preservation of the title invariant (under well-behaved updates) -/

theorem titleInv_subset {s s' : StoreState}
    (hsub : ∀ t ∈ s'.tasks, t ∈ s.tasks) (h : TitleInv s) : TitleInv s' :=
  fun t ht => h t (hsub t ht)

theorem titleInv_addTask (title description : Str) (now : Nat)
    (s : StoreState) (h : TitleInv s) :
    TitleInv (addTask title description now s) := by
  by_cases hb : strTrim title = []
  · simpa [addTask, hb] using h
  · intro t ht
    unfold addTask at ht
    rw [if_neg hb] at ht
    rcases List.mem_append.mp ht with h1 | h2
    · exact h t h1
    · simp only [List.mem_singleton] at h2
      rw [h2]
      exact ⟨by simpa [strTrim_strTrim] using hb, strTrim_strTrim title⟩

theorem titleInv_updateTask {id : Nat} {u : TaskUpdates} {now : Nat}
    {s : StoreState} (hu : ∀ x, u.title = some x → goodTitle x)
    (h : TitleInv s) : TitleInv (updateTask id u now s) := by
  cases hidx : findIndex (fun t => t.id == id) s.tasks with
  | none =>
    unfold updateTask
    rw [hidx]
    exact h
  | some i =>
    obtain ⟨l₁, t, l₂, hl, hlen, hpt, hfail⟩ := findIndex_decomp hidx
    intro t' ht'
    rw [updateTask_found u now hl (by simpa using hpt) hfail] at ht'
    have hmem : ∀ x ∈ l₁ ++ t :: l₂, goodTitle x.title := fun x hx => h x (hl ▸ hx)
    rcases List.mem_append.mp ht' with h1 | h2
    · exact hmem t' (List.mem_append_left _ h1)
    · rcases List.mem_cons.mp h2 with h3 | h4
      · rw [h3]
        cases hx : u.title with
        | none =>
          have : (applyUpdates u now t).title = t.title := by
            simp [applyUpdates, hx]
          rw [this]
          exact hmem t (List.mem_append_right _ (List.mem_cons_self t l₂))
        | some x =>
          have : (applyUpdates u now t).title = x := by simp [applyUpdates, hx]
          rw [this]
          exact hu x hx
      · exact hmem t' (List.mem_append_right _ (List.mem_cons_of_mem t h4))

theorem titleInv_toggle (id now : Nat) (s : StoreState) (h : TitleInv s) :
    TitleInv (toggleTaskComplete id now s) := by
  unfold toggleTaskComplete
  cases s.tasks.find? (fun t => t.id == id) with
  | none => exact h
  | some t =>
    exact titleInv_updateTask (fun x hx => by simp at hx) h

/-- Soundness of `opTitleOk`: it really says that any title set by the partial is good. -/
theorem opTitleOk_update {id : Nat} {u : TaskUpdates} {now : Nat}
    (hop : opTitleOk (Op.update id u now) = true) :
    ∀ x, u.title = some x → goodTitle x := by
  intro x hx
  simp only [opTitleOk, hx] at hop
  simp only [Bool.and_eq_true, Bool.not_eq_true', beq_iff_eq] at hop
  refine ⟨?_, hop.2⟩
  intro hempty
  rw [hempty] at hop
  simp at hop

theorem titleInv_applyOp {op : Op} {s : StoreState}
    (hop : opTitleOk op = true) (h : TitleInv s) : TitleInv (applyOp op s) := by
  cases op with
  | add title description now => exact titleInv_addTask title description now s h
  | update id u now => exact titleInv_updateTask (opTitleOk_update hop) h
  | toggle id now => exact titleInv_toggle id now s h
  | delete id =>
    refine titleInv_subset ?_ h
    show ∀ t ∈ (deleteTask id s).tasks, t ∈ s.tasks
    unfold deleteTask
    cases findIndex (fun t => t.id == id) s.tasks with
    | none => exact fun t ht => ht
    | some i => exact fun t ht => (List.eraseIdx_sublist s.tasks i).subset ht
  | clearCompleted =>
    refine titleInv_subset ?_ h
    exact fun t ht => (List.filter_sublist s.tasks).subset ht
  | clearAll =>
    intro t ht
    simp [applyOp, clearAllTasks] at ht

theorem titleInv_run : ∀ (ops : List Op) (s : StoreState),
    (∀ op ∈ ops, opTitleOk op = true) → TitleInv s → TitleInv (run ops s) := by
  intro ops
  induction ops with
  | nil => intro s _ h; exact h
  | cons op rest ih =>
    intro s hops h
    exact ih (applyOp op s)
      (fun o ho => hops o (List.mem_cons_of_mem op ho))
      (titleInv_applyOp (hops op (List.mem_cons_self op rest)) h)

/-! ## The assigned-id trace -/

theorem applyOp_nextId_mono (op : Op) (s : StoreState) (h : op ≠ Op.clearAll) :
    s.nextId ≤ (applyOp op s).nextId := by
  cases op with
  | add title description now =>
    show s.nextId ≤ (addTask title description now s).nextId
    unfold addTask
    by_cases hb : strTrim title = []
    · rw [if_pos hb]
    · rw [if_neg hb]
      exact Nat.le_succ _
  | update id u now => rw [show applyOp (Op.update id u now) s = updateTask id u now s from rfl, updateTask_nextId]
  | delete id => rw [show applyOp (Op.delete id) s = deleteTask id s from rfl, deleteTask_nextId]
  | toggle id now => rw [show applyOp (Op.toggle id now) s = toggleTaskComplete id now s from rfl, toggleTaskComplete_nextId]
  | clearCompleted => exact le_refl _
  | clearAll => exact absurd rfl h

theorem runAssigned_inv : ∀ (ops : List Op) (s : StoreState) (acc : List Nat),
    acc.Pairwise (· < ·) → (∀ i ∈ acc, i < s.nextId) →
    (runAssigned ops s acc).2.Pairwise (· < ·) ∧
      ∀ i ∈ (runAssigned ops s acc).2, i < (runAssigned ops s acc).1.nextId := by
  intro ops
  induction ops with
  | nil => intro s acc h1 h2; exact ⟨h1, h2⟩
  | cons op rest ih =>
    intro s acc h1 h2
    cases op with
    | add title description now =>
      simp only [runAssigned]
      by_cases hb : strTrim title = []
      · rw [if_pos hb]
        refine ih _ acc h1 fun i hi => ?_
        show i < (addTask title description now s).nextId
        unfold addTask
        rw [if_pos hb]
        exact h2 i hi
      · rw [if_neg hb]
        refine ih _ (acc ++ [s.nextId]) ?_ ?_
        · rw [List.pairwise_append]
          refine ⟨h1, by simp, ?_⟩
          intro a ha b hbm
          simp only [List.mem_singleton] at hbm
          rw [hbm]
          exact h2 a ha
        · intro i hi
          show i < (addTask title description now s).nextId
          unfold addTask
          rw [if_neg hb]
          rcases List.mem_append.mp hi with hi1 | hi2
          · exact Nat.lt_succ_of_lt (h2 i hi1)
          · simp only [List.mem_singleton] at hi2
            rw [hi2]
            exact Nat.lt_succ_self _
    | clearAll =>
      simp only [runAssigned]
      exact ih _ [] List.Pairwise.nil (by intro i hi; simp at hi)
    | update id u now =>
      simp only [runAssigned]
      refine ih _ acc h1 fun i hi => ?_
      show i < (updateTask id u now s).nextId
      rw [updateTask_nextId]
      exact h2 i hi
    | delete id =>
      simp only [runAssigned]
      refine ih _ acc h1 fun i hi => ?_
      show i < (deleteTask id s).nextId
      rw [deleteTask_nextId]
      exact h2 i hi
    | toggle id now =>
      simp only [runAssigned]
      refine ih _ acc h1 fun i hi => ?_
      show i < (toggleTaskComplete id now s).nextId
      rw [toggleTaskComplete_nextId]
      exact h2 i hi
    | clearCompleted =>
      simp only [runAssigned]
      exact ih _ acc h1 h2

/-! ## The claims -/

/-- Claim C1 (counterexample): the claim as stated fails. The state reached
by `addTask "A"` followed by `updateTask(1, {title: ""})` is reachable
through the store's operations, yet its task's title is empty:
`updateTask` applies the partial's title verbatim, without trimming or
validation. -/
theorem title_invariant_counterexample :
    ¬ ∀ ops : List Op, ∀ t ∈ (run ops initState).tasks, goodTitle t.title := by
  intro h
  have hm := h [Op.add ['A'] [] 0, Op.update 1 { title := some [] } 1]
    { id := 1, title := [], description := [], completed := false,
      createdAt := 0, updatedAt := 1 } (by decide)
  exact hm.1 (by decide)

/-- Claim C1 (amended): in every state reachable by addTask, updateTask,
deleteTask, toggleTaskComplete, clearCompletedTasks and clearAllTasks
calls *in which every `updateTask` partial that sets `title` sets it to a
non-empty trimmed value*, every task's title is non-empty after trimming
and carries no leading or trailing whitespace. -/
theorem title_invariant_amended (ops : List Op)
    (h : ∀ op ∈ ops, opTitleOk op = true) :
    ∀ t ∈ (run ops initState).tasks, goodTitle t.title :=
  titleInv_run ops initState h (by intro t ht; simp [initState] at ht)

/-- Claim C1 (witness for the amended claim). -/
theorem title_invariant_witness :
    goodTitle ({ id := 1, title := ['X'], description := [],
                 completed := false, createdAt := 0,
                 updatedAt := 1 } : Task).title :=
  title_invariant_amended
    [Op.add ['A'] [] 0, Op.update 1 { title := some ['X'] } 1]
    (by decide) _ (by decide)

/-- Claim C2: when no task in the collection carries `id`, the calls
`updateTask id`, `deleteTask id` and `toggleTaskComplete id` all leave
the whole store state (collection and counter) unchanged, with no error
signalled (the operations are total functions). -/
theorem missing_id_noop (id : Nat) (s : StoreState)
    (h : ∀ t ∈ s.tasks, t.id ≠ id) :
    (∀ (u : TaskUpdates) (now : Nat), updateTask id u now s = s) ∧
    deleteTask id s = s ∧
    (∀ now : Nat, toggleTaskComplete id now s = s) := by
  have hfail : ∀ t ∈ s.tasks, (fun t => t.id == id) t = false := by
    intro t ht
    simpa using h t ht
  have hidx : findIndex (fun t => t.id == id) s.tasks = none :=
    findIndex_eq_none.mpr hfail
  have hfind : s.tasks.find? (fun t => t.id == id) = none :=
    List.find?_eq_none.mpr (by intro t ht; simpa using h t ht)
  refine ⟨fun u now => ?_, ?_, fun now => ?_⟩
  · unfold updateTask; rw [hidx]
  · unfold deleteTask; rw [hidx]
  · unfold toggleTaskComplete; rw [hfind]

/-- Claim C2 (witness): id 5 is absent after a single `addTask`. -/
theorem missing_id_noop_witness :
    updateTask 5 { title := some ['B'] } 9 (addTask ['A'] [] 0 initState) =
      addTask ['A'] [] 0 initState ∧
    deleteTask 5 (addTask ['A'] [] 0 initState) = addTask ['A'] [] 0 initState ∧
    toggleTaskComplete 5 9 (addTask ['A'] [] 0 initState) =
      addTask ['A'] [] 0 initState :=
  ⟨(missing_id_noop 5 _ (by decide)).1 { title := some ['B'] } 9,
   (missing_id_noop 5 _ (by decide)).2.1,
   (missing_id_noop 5 _ (by decide)).2.2 9⟩

/-- Claim C3: `addTask` is a silent no-op on a blank title; otherwise it
appends exactly one task at the end, carrying the next allocated id, the
trimmed title, `completed = false` and `createdAt = updatedAt = now`,
and advances the counter. -/
theorem addTask_spec (title description : Str) (now : Nat) (s : StoreState) :
    (strTrim title = [] → addTask title description now s = s) ∧
    (strTrim title ≠ [] →
      addTask title description now s =
        { tasks := s.tasks ++
            [{ id := s.nextId, title := strTrim title,
               description := strTrim description, completed := false,
               createdAt := now, updatedAt := now }],
          nextId := s.nextId + 1 }) := by
  constructor
  · intro h; unfold addTask; rw [if_pos h]
  · intro h; unfold addTask; rw [if_neg h]

/-- Claim C3 (witness): a whitespace-only title is a no-op; `"A"` is
appended with id 1 and both timestamps 5. -/
theorem addTask_spec_witness :
    addTask [' ', ' '] ['d'] 0 initState = initState ∧
    addTask ['A'] [] 5 initState =
      { tasks := [{ id := 1, title := ['A'], description := [],
                    completed := false, createdAt := 5, updatedAt := 5 }],
        nextId := 2 } := by
  refine ⟨(addTask_spec [' ', ' '] ['d'] 0 initState).1 (by decide), ?_⟩
  rw [(addTask_spec ['A'] [] 5 initState).2 (by decide)]
  decide

/-- Claim C4: when `id` is present (found as task `t`), after
`updateTask(id, {title: x})` the task found at `id` is `t` merged with
the partial: the `id` and `createdAt` are unchanged, `title` equals `x`,
`updatedAt` strictly increases under a strictly monotonic clock, and the
fields not named in the partial keep their previous values. -/
theorem update_preserves_identity (id now : Nat) (x : Str) (s : StoreState)
    (t : Task) (hfind : getTaskById id s = some t)
    (hclock : t.updatedAt < now) :
    getTaskById id (updateTask id { title := some x } now s) =
      some (applyUpdates { title := some x } now t) ∧
    (applyUpdates { title := some x } now t).id = t.id ∧
    (applyUpdates { title := some x } now t).createdAt = t.createdAt ∧
    (applyUpdates { title := some x } now t).title = x ∧
    t.updatedAt < (applyUpdates { title := some x } now t).updatedAt ∧
    (applyUpdates { title := some x } now t).description = t.description ∧
    (applyUpdates { title := some x } now t).completed = t.completed := by
  obtain ⟨l₁, l₂, hl, hpt, hfail⟩ := find?_decomp hfind
  have hpt' : t.id = id := by simpa using hpt
  have htasks := updateTask_found { title := some x } now hl hpt' hfail
  refine ⟨?_, rfl, rfl, rfl, hclock, rfl, rfl⟩
  show (updateTask id { title := some x } now s).tasks.find?
      (fun u => u.id == id) = _
  rw [htasks]
  apply find?_append_cons hfail
  simp [applyUpdates_id, hpt']

/-- Claim C4 (witness): concrete store with one task, updated at time 3. -/
theorem update_preserves_identity_witness :
    getTaskById 1 (updateTask 1 { title := some ['X'] } 3
        (addTask ['A'] ['d'] 0 initState)) =
      some (applyUpdates { title := some ['X'] } 3
        { id := 1, title := ['A'], description := ['d'], completed := false,
          createdAt := 0, updatedAt := 0 }) ∧
    (applyUpdates { title := some ['X'] } 3
        { id := 1, title := ['A'], description := ['d'], completed := false,
          createdAt := 0, updatedAt := 0 }).id =
      ({ id := 1, title := ['A'], description := ['d'], completed := false,
          createdAt := 0, updatedAt := 0 } : Task).id ∧
    (applyUpdates { title := some ['X'] } 3
        { id := 1, title := ['A'], description := ['d'], completed := false,
          createdAt := 0, updatedAt := 0 }).createdAt =
      ({ id := 1, title := ['A'], description := ['d'], completed := false,
          createdAt := 0, updatedAt := 0 } : Task).createdAt ∧
    (applyUpdates { title := some ['X'] } 3
        { id := 1, title := ['A'], description := ['d'], completed := false,
          createdAt := 0, updatedAt := 0 }).title = ['X'] ∧
    ({ id := 1, title := ['A'], description := ['d'], completed := false,
        createdAt := 0, updatedAt := 0 } : Task).updatedAt <
      (applyUpdates { title := some ['X'] } 3
        { id := 1, title := ['A'], description := ['d'], completed := false,
          createdAt := 0, updatedAt := 0 }).updatedAt ∧
    (applyUpdates { title := some ['X'] } 3
        { id := 1, title := ['A'], description := ['d'], completed := false,
          createdAt := 0, updatedAt := 0 }).description =
      ({ id := 1, title := ['A'], description := ['d'], completed := false,
          createdAt := 0, updatedAt := 0 } : Task).description ∧
    (applyUpdates { title := some ['X'] } 3
        { id := 1, title := ['A'], description := ['d'], completed := false,
          createdAt := 0, updatedAt := 0 }).completed =
      ({ id := 1, title := ['A'], description := ['d'], completed := false,
          createdAt := 0, updatedAt := 0 } : Task).completed :=
  update_preserves_identity 1 3 ['X'] (addTask ['A'] ['d'] 0 initState)
    { id := 1, title := ['A'], description := ['d'], completed := false,
      createdAt := 0, updatedAt := 0 } (by decide) (by decide)

/-- Claim C5: the ids assigned by successful adds since the last
`clearAllTasks` are strictly increasing in order of assignment, the
counter stays strictly above every such id (so the next assigned id is
strictly greater than all of them), and no operation other than
`clearAllTasks` ever decreases the counter. -/
theorem monotonic_ids :
    (∀ ops : List Op, (runAssigned ops initState []).2.Pairwise (· < ·)) ∧
    (∀ ops : List Op, ∀ i ∈ (runAssigned ops initState []).2,
       i < (runAssigned ops initState []).1.nextId) ∧
    (∀ (op : Op) (s : StoreState), op ≠ Op.clearAll →
       s.nextId ≤ (applyOp op s).nextId) := by
  refine ⟨fun ops => ?_, fun ops => ?_, applyOp_nextId_mono⟩
  · exact (runAssigned_inv ops initState [] List.Pairwise.nil
      (by intro i hi; simp at hi)).1
  · exact (runAssigned_inv ops initState [] List.Pairwise.nil
      (by intro i hi; simp at hi)).2

/-- Claim C5 (witness): two adds assign increasing ids; a delete does not
reset the counter. -/
theorem monotonic_ids_witness :
    (runAssigned [Op.add ['A'] [] 0, Op.add ['B'] [] 1] initState
        []).2.Pairwise (· < ·) ∧
    initState.nextId ≤ (applyOp (Op.delete 1) initState).nextId :=
  ⟨monotonic_ids.1 [Op.add ['A'] [] 0, Op.add ['B'] [] 1],
   monotonic_ids.2.2 (Op.delete 1) initState (by decide)⟩

/-- Claim C6: in every reachable state of the store the ids of the tasks in
the collection are pairwise distinct. -/
theorem ids_distinct (ops : List Op) :
    ((run ops initState).tasks.map Task.id).Nodup :=
  (idInv_run ops initState idInv_init).1.imp fun h => Nat.ne_of_lt h

/-- Claim C7: assuming the clock readings along the call sequence are
nondecreasing (a monotonic clock), every task in every reachable state
satisfies `createdAt ≤ updatedAt`. -/
theorem updatedAt_ge_createdAt (ops : List Op)
    (h : List.Chain (· ≤ ·) 0 (timesOf ops)) :
    ∀ t ∈ (run ops initState).tasks, t.createdAt ≤ t.updatedAt := by
  obtain ⟨c', hc'⟩ := timeInv_run ops 0 initState
    (by intro t ht; simp [initState] at ht) h
  exact fun t ht => (hc' t ht).1

/-- Claim C7 (witness): add at time 5, update at time 7. -/
theorem updatedAt_ge_createdAt_witness :
    ({ id := 1, title := ['B'], description := [], completed := false,
       createdAt := 5, updatedAt := 7 } : Task).createdAt ≤
      ({ id := 1, title := ['B'], description := [], completed := false,
         createdAt := 5, updatedAt := 7 } : Task).updatedAt :=
  updatedAt_ge_createdAt
    [Op.add ['A'] [] 5, Op.update 1 { title := some ['B'] } 7]
    (by
      have heq : timesOf [Op.add ['A'] [] 5,
          Op.update 1 { title := some ['B'] } 7] = [5, 7] := rfl
      rw [heq]
      exact List.Chain.cons (by decide)
        (List.Chain.cons (by decide) List.Chain.nil))
    _ (by decide)

/-- Claim C8: insertion order is preserved: `addTask` either leaves the
collection unchanged or appends one task at the end; `deleteTask` either
leaves it unchanged or removes exactly the single first record carrying
the id, keeping the remaining records in order; `clearCompletedTasks` is
a one-pass filter, an order-preserving subsequence; `updateTask` and
`toggleTaskComplete` keep the sequence of ids (hence positions)
unchanged; `clearAllTasks` empties the collection. -/
theorem order_preserved :
    (∀ (title description : Str) (now : Nat) (s : StoreState),
       (addTask title description now s).tasks = s.tasks ∨
       ∃ t : Task, (addTask title description now s).tasks = s.tasks ++ [t]) ∧
    (∀ (id : Nat) (s : StoreState),
       (deleteTask id s).tasks = s.tasks ∨
       ∃ l₁ t l₂, s.tasks = l₁ ++ t :: l₂ ∧ t.id = id ∧
         (∀ x ∈ l₁, x.id ≠ id) ∧ (deleteTask id s).tasks = l₁ ++ l₂) ∧
    (∀ s : StoreState,
       (clearCompletedTasks s).tasks = s.tasks.filter (fun t => !t.completed) ∧
       (clearCompletedTasks s).tasks.Sublist s.tasks) ∧
    (∀ (id : Nat) (u : TaskUpdates) (now : Nat) (s : StoreState),
       (updateTask id u now s).tasks.map Task.id = s.tasks.map Task.id) ∧
    (∀ (id now : Nat) (s : StoreState),
       (toggleTaskComplete id now s).tasks.map Task.id = s.tasks.map Task.id) ∧
    (∀ s : StoreState, (clearAllTasks s).tasks = []) := by
  refine ⟨?_, ?_, ?_, updateTask_map_id, toggleTaskComplete_map_id,
    fun s => rfl⟩
  · intro title description now s
    by_cases hb : strTrim title = []
    · left; unfold addTask; rw [if_pos hb]
    · right
      refine ⟨{ id := s.nextId, title := strTrim title,
                description := strTrim description, completed := false,
                createdAt := now, updatedAt := now }, ?_⟩
      unfold addTask
      rw [if_neg hb]
  · intro id s
    cases hidx : findIndex (fun t => t.id == id) s.tasks with
    | none => left; unfold deleteTask; rw [hidx]
    | some i =>
      right
      obtain ⟨l₁, t, l₂, hl, hlen, hpt, hfail⟩ := findIndex_decomp hidx
      have hpt' : t.id = id := by simpa using hpt
      refine ⟨l₁, t, l₂, hl, hpt', ?_, deleteTask_found hl hpt' hfail⟩
      intro x hx
      simpa using hfail x hx
  · intro s
    exact ⟨rfl, List.filter_sublist s.tasks⟩

/-- Claim C8 (witness): a completed-free clear is a filter; an update
keeps the id sequence. -/
theorem order_preserved_witness :
    (clearCompletedTasks (addTask ['A'] [] 0 initState)).tasks =
      (addTask ['A'] [] 0 initState).tasks.filter (fun t => !t.completed) ∧
    (updateTask 1 { completed := some true } 2
        (addTask ['A'] [] 0 initState)).tasks.map Task.id =
      (addTask ['A'] [] 0 initState).tasks.map Task.id :=
  ⟨(order_preserved.2.2.1 (addTask ['A'] [] 0 initState)).1,
   order_preserved.2.2.2.1 1 { completed := some true } 2
     (addTask ['A'] [] 0 initState)⟩

/-- Claim C9: for any collection state, `pendingTasks` and `completedTasks`
are disjoint subsequences of the collection in collection order, their
members together are exactly the members of the collection, and the
three-way filter of `TaskList.vue` returns the full collection for
`all` and the corresponding views for `pending` and `completed`. -/
theorem filter_partition (s : StoreState) :
    (∀ t : Task, ¬(t ∈ pendingTasks s ∧ t ∈ completedTasks s)) ∧
    (pendingTasks s).Sublist s.tasks ∧
    (completedTasks s).Sublist s.tasks ∧
    (∀ t : Task, t ∈ s.tasks ↔ t ∈ pendingTasks s ∨ t ∈ completedTasks s) ∧
    filteredTasks FilterMode.all s.tasks = s.tasks ∧
    filteredTasks FilterMode.pending s.tasks = pendingTasks s ∧
    filteredTasks FilterMode.completed s.tasks = completedTasks s := by
  refine ⟨?_, List.filter_sublist _, List.filter_sublist _, ?_, rfl, rfl, rfl⟩
  · rintro t ⟨hp, hc⟩
    simp only [pendingTasks, List.mem_filter] at hp
    simp only [completedTasks, List.mem_filter] at hc
    rw [hc.2] at hp
    simp at hp
  · intro t
    simp only [pendingTasks, completedTasks, List.mem_filter]
    constructor
    · intro ht
      by_cases hcpl : t.completed
      · right; exact ⟨ht, hcpl⟩
      · left; exact ⟨ht, by simpa using hcpl⟩
    · rintro (h | h) <;> exact h.1

/-- Claim C9 (witness): a concrete one-task state. -/
theorem filter_partition_witness :
    (pendingTasks (addTask ['A'] [] 0 initState)).Sublist
      (addTask ['A'] [] 0 initState).tasks ∧
    filteredTasks FilterMode.all (addTask ['A'] [] 0 initState).tasks =
      (addTask ['A'] [] 0 initState).tasks :=
  ⟨(filter_partition (addTask ['A'] [] 0 initState)).2.1,
   (filter_partition (addTask ['A'] [] 0 initState)).2.2.2.2.1⟩

/-- Claim C10: for a non-blank title, the stored task's description is the
given description with leading and trailing whitespace removed
(`description.trim()`); in particular a whitespace-only description is
stored as the empty string. -/
theorem description_trimmed (title description : Str) (now : Nat)
    (s : StoreState) (h : strTrim title ≠ []) :
    (addTask title description now s).tasks =
      s.tasks ++ [{ id := s.nextId, title := strTrim title,
                    description := strTrim description, completed := false,
                    createdAt := now, updatedAt := now }] := by
  unfold addTask
  rw [if_neg h]

/-- Claim C10 (witness): a whitespace-only description is stored empty. -/
theorem description_trimmed_witness :
    (addTask ['A'] [' ', ' '] 3 initState).tasks =
      [{ id := 1, title := ['A'], description := [], completed := false,
         createdAt := 3, updatedAt := 3 }] := by
  rw [description_trimmed ['A'] [' ', ' '] 3 initState (by decide)]
  decide

end TaskBox
